import Mathlib

set_option maxRecDepth 100000

/-!
Verification development for the rainbow-net message codec
(`src/lib/rnet_crypto.py` and `src/lib/rnet_bf.py`).

Bytes of a Python 2 `str` are modelled as `Fin 256`; a `str` is a `List Byte`.
Text (the `NumericText` wire format) is modelled as a list of character codes
(`List Nat`).  Python exceptions are modelled by `Option`: `none` is a raised
error.

The external libraries `rs` (Reed-Solomon), `rsa`/`zlib` and `blowfish`/
`hashlib` are not part of the repository sources; they are modelled from the
specification (see the doc comments marked `Modelled from the spec`).
-/

abbrev Byte := Fin 256

abbrev ByteStr := List Byte

/-- Python whitespace characters (the set removed by `str.strip()`):
space, tab, newline, carriage return, vertical tab, form feed. -/
def isWS (c : Nat) : Bool :=
  c = 32 || c = 9 || c = 10 || c = 13 || c = 11 || c = 12

/-- Python `str.strip()`: remove whitespace from both ends. -/
def pyStrip (l : List Nat) : List Nat :=
  ((l.dropWhile isWS).reverse.dropWhile isWS).reverse

/-- Python `data.split(" ")`: split on every single space character,
keeping empty fragments (as Python does for consecutive separators). -/
def splitSp : List Nat → List (List Nat)
  | [] => [[]]
  | c :: cs =>
    if c = 32 then [] :: splitSp cs
    else
      match splitSp cs with
      | [] => [[c]]
      | t :: ts => (c :: t) :: ts

/-- Value of a decimal digit character, `none` if not a digit. -/
def digVal (c : Nat) : Option Nat :=
  if 48 ≤ c ∧ c ≤ 57 then some (c - 48) else none

/-- Parse a non-empty all-digit string as a natural number. -/
def parseNat (l : List Nat) : Option Nat :=
  match l with
  | [] => none
  | _ =>
    l.foldl
      (fun acc c =>
        match acc, digVal c with
        | some a, some d => some (10 * a + d)
        | _, _ => none)
      (some 0)

/-- Python 2 `int(s)` on an already-stripped string: an optional single
sign `+`/`-` followed by one or more decimal digits; anything else raises. -/
def pyInt (l : List Nat) : Option Int :=
  match l with
  | 43 :: ds => (parseNat ds).map fun n => (n : Int)
  | 45 :: ds => (parseNat ds).map fun n => -(n : Int)
  | ds => (parseNat ds).map fun n => (n : Int)

/-- Python 2 `chr(v)`: the byte with code `v` when `0 ≤ v < 256`,
otherwise a `ValueError` (modelled as `none`). -/
def pyChr (v : Int) : Option Byte :=
  if h : 0 ≤ v ∧ v < 256 then some ⟨v.toNat, by omega⟩ else none

/-- The token loop of `crypto.numdecode`: strip each fragment, skip empty
fragments, parse the rest with `int` and `chr`; the first failure raises. -/
def decTokens : List (List Nat) → Option ByteStr
  | [] => some []
  | p :: ps =>
    if pyStrip p = [] then decTokens ps
    else
      (pyInt (pyStrip p)).bind fun v =>
        (pyChr v).bind fun b =>
          (decTokens ps).map fun rest => b :: rest

/-- Python `"%03d" % d` for a byte value `d < 256 < 1000`: exactly three
zero-padded decimal digit characters. -/
def tok3 (d : Byte) : List Nat :=
  [48 + d.val / 100, 48 + d.val / 10 % 10, 48 + d.val % 10]

/-- The stripped non-empty fragments of a NumericText stream: the tokens
`crypto.numdecode` actually parses. -/
def pyTokens (s : List Nat) : List (List Nat) :=
  ((splitSp s).map pyStrip).filter (fun t => t ≠ [])

/-- Texts built from the 3-digit tokens of the bytes of `b`, with a
separator between each pair of consecutive tokens. -/
def interleave : List (List Nat) → List (List Nat) → List Nat
  | [], _ => []
  | [t], _ => t
  | t :: ts, [] => t ++ interleave ts []
  | t :: ts, s :: ss => t ++ s ++ interleave ts ss

/-- Byte from the bitwise or of two sub-byte values. -/
def byteOfOr (a b : Nat) (ha : a < 256) (hb : b < 256) : Byte :=
  ⟨a ||| b, by
    have h : (256 : Nat) = 2 ^ 8 := by norm_num
    rw [h] at ha hb ⊢
    exact Nat.or_lt_two_pow ha hb⟩

/-- Modelled from the spec: Python 2 `unicode.encode("utf8")` for one code
point, as produced by the CPython UTF-8 encoder (code points are below
0x110000, where the masks with 0x3F/0x07 agree with the unmasked CPython
shifts). -/
def utf8Char (x : Nat) : ByteStr :=
  if h1 : x < 0x80 then [⟨x, by omega⟩]
  else if h2 : x < 0x800 then
    [byteOfOr 0xC0 (x >>> 6) (by norm_num)
      (by rw [Nat.shiftRight_eq_div_pow]
          have h : (2 : Nat) ^ 6 = 64 := by norm_num
          rw [h]; omega),
     byteOfOr 0x80 (x &&& 0x3F) (by norm_num)
      (by have := @Nat.and_le_right x 0x3F; omega)]
  else if h3 : x < 0x10000 then
    [byteOfOr 0xE0 (x >>> 12) (by norm_num)
      (by rw [Nat.shiftRight_eq_div_pow]
          have h : (2 : Nat) ^ 12 = 4096 := by norm_num
          rw [h]; omega),
     byteOfOr 0x80 (x >>> 6 &&& 0x3F) (by norm_num)
      (by have := @Nat.and_le_right (x >>> 6) 0x3F; omega),
     byteOfOr 0x80 (x &&& 0x3F) (by norm_num)
      (by have := @Nat.and_le_right x 0x3F; omega)]
  else
    [byteOfOr 0xF0 (x >>> 18 &&& 0x07) (by norm_num)
      (by have := @Nat.and_le_right (x >>> 18) 0x07; omega),
     byteOfOr 0x80 (x >>> 12 &&& 0x3F) (by norm_num)
      (by have := @Nat.and_le_right (x >>> 12) 0x3F; omega),
     byteOfOr 0x80 (x >>> 6 &&& 0x3F) (by norm_num)
      (by have := @Nat.and_le_right (x >>> 6) 0x3F; omega),
     byteOfOr 0x80 (x &&& 0x3F) (by norm_num)
      (by have := @Nat.and_le_right x 0x3F; omega)]

/-- Modelled from the spec: Python 2 `u.encode("utf8")`, code point by
code point. -/
def utf8Encode (u : List Nat) : ByteStr :=
  (u.map utf8Char).flatten

/-- A Python 2 string value: either a byte string `str` or a `unicode`
text (a list of code points).  `crypto.encrypt` branches on this type. -/
inductive PyStr where
  | bytes (b : ByteStr)
  | uni (u : List Nat)

/-- The byte string fed to the hybrid cipher: `crypto.encrypt` encodes
`unicode` input as UTF-8 first (source line 44). -/
def pyToBytes : PyStr → ByteStr
  | .bytes b => b
  | .uni u => utf8Encode u

/-- Python 2 equality between a byte `str` and a `unicode` text: Python
coerces the `str` through an ASCII decode, so the two are equal exactly
when the bytes are all ASCII and match the code points. -/
def pyStrUniEq (b : ByteStr) (u : List Nat) : Prop :=
  b.map Fin.val = u ∧ ∀ c ∈ b, c.val < 128

instance (b : ByteStr) (u : List Nat) : Decidable (pyStrUniEq b u) := by
  unfold pyStrUniEq; infer_instance

/-- The Cyrillic test text of the source demo scaled to a 127-byte UTF-8
encoding: 63 copies of the code point 0x411 followed by an ASCII letter. -/
def uCyr : List Nat :=
  List.replicate 63 1041 ++ [97]

/-- Modelled from the spec: the external collaborators of the codec that
are absent from the sources, reduced to their interfaces (section 9 of the
spec): StreamCompressor `compress`/`decompress` (zlib) and HybridCipher
`encrypt`/`decrypt` (the rsa bigfile pair).  Keys are opaque handles;
fallible operations return `Option`. -/
structure Externals where
  comp : ByteStr → ByteStr
  uncomp : ByteStr → Option ByteStr
  enc : ByteStr → Nat → ByteStr
  dec : ByteStr → Nat → Option ByteStr

/-- The trivial compliant collaborators: identity compression and an
encryption that ignores the key.  They satisfy every interface contract
and are used to instantiate theorems at concrete inputs. -/
def idE : Externals :=
  ⟨id, some, fun b _ => b, fun b _ => some b⟩

abbrev Msg := Fin 127 → Byte

abbrev Codeword := Fin 255 → Byte

/-- Modelled from the spec: the 256-symbol field of the (255,127)
Reed-Solomon-class block code (spec section 4.2). -/
abbrev F256 := GaloisField 2 8

noncomputable instance : Fintype F256 := Fintype.ofFinite _

/-- Identification of field elements with byte symbols. -/
noncomputable def byteEquiv : F256 ≃ Fin 256 :=
  Fintype.equivFinOfCardEq
    (by
      rw [← Nat.card_eq_fintype_card]
      have h := GaloisField.card 2 8 (by norm_num)
      rw [h]; norm_num)

/-- The 255 distinct evaluation points of the code. -/
noncomputable def pt (i : Fin 255) : F256 :=
  byteEquiv.symm ⟨i.val, Nat.lt_trans i.isLt (by norm_num)⟩

/-- The first 127 evaluation points carry the data symbols (the code is
systematic). -/
noncomputable def node (j : Fin 127) : F256 :=
  pt ⟨j.val, Nat.lt_trans j.isLt (by norm_num)⟩

/-- A data chunk as a vector of field elements. -/
noncomputable def msgF (m : Msg) : Fin 127 → F256 :=
  fun j => byteEquiv.symm (m j)

/-- Modelled from the spec: the message polynomial of a chunk — the unique
polynomial of degree below 127 interpolating the data symbols at the data
nodes. -/
noncomputable def rsPoly (m : Msg) : Polynomial F256 :=
  Lagrange.interpolate Finset.univ node (msgF m)

noncomputable def codeF (m : Msg) (i : Fin 255) : F256 :=
  (rsPoly m).eval (pt i)

/-- Modelled from the spec: the 255-symbol systematic codeword of a
127-symbol data vector (`ErasureBlockCoder.encode`, spec section 4.2). -/
noncomputable def protectF (m : Msg) : Codeword :=
  fun i => byteEquiv (codeF m i)

open Classical in
/-- Modelled from the spec: `ErasureBlockCoder.decode` — return the data
vector of a codeword within Hamming distance 64 of the received word when
one exists, otherwise raise `UncorrectableBlock` (modelled as `none`). -/
noncomputable def decodeF (w : Codeword) : Option Msg :=
  if h : ∃ m : Msg, hammingDist (protectF m) w ≤ 64 then some h.choose else none

/-- A chunk of at most 127 bytes as a 127-symbol data vector.  Modelled
from the spec: the padding convention left open in spec section 9 is
resolved as zero-padding on the right. -/
def toMsg (c : ByteStr) : Msg :=
  fun j => c.getD j.val 0

/-- A received 255-byte block as a word of 255 symbols. -/
def toWord (w : ByteStr) : Codeword :=
  fun i => w.getD i.val 0

/-- The number of byte positions (among the 255 positions of a block) at
which two byte strings differ: how many symbols were altered. -/
def alterations (a b : ByteStr) : Nat :=
  hammingDist (toWord a) (toWord b)

namespace crypto

/-- Loop of `crypto.numencode`: emit `"%03d "` per byte and a newline
after every 11th byte (`c > 10` resets the counter). -/
def numencAux : Nat → ByteStr → List Nat
  | _, [] => []
  | c, d :: ds =>
    tok3 d ++ 32 :: (if c + 1 > 10 then 10 :: numencAux 0 ds else numencAux (c + 1) ds)

/-- `crypto.numencode`: 3-digit groups separated by single spaces, with a
newline after every 11 groups and a final newline. -/
def numencode (data : ByteStr) : List Nat :=
  numencAux 0 data ++ [10]

/-- `crypto.numdecode`: split on single spaces, strip each fragment, skip
empty fragments, and convert each remaining token with `int` and `chr`. -/
def numdecode (data : List Nat) : Option ByteStr :=
  decTokens (splitSp data)

/-- `crypto.chunks`: the slices `data[start:start+n]` for
`start in range(0, len(data), n)`. -/
def chunks {α : Type*} (data : List α) (n : Nat) : List (List α) :=
  (List.range ((data.length + n - 1) / n)).map fun k => (data.drop (k * n)).take n

/-- `crypto.protect`: encode one chunk of at most 127 bytes with
`RSCoder(255, 127)` (modelled from the spec, `protectF`). -/
noncomputable def protect (data : ByteStr) : ByteStr :=
  List.ofFn fun i => protectF (toMsg data) i

/-- `crypto.getprotected`: decode one 255-byte block with
`RSCoder(255, 127)` (modelled from the spec, `decodeF`);
`UncorrectableBlock` is modelled as `none`. -/
noncomputable def getprotected (data : ByteStr) : Option ByteStr :=
  if data.length = 255 then (decodeF (toWord data)).map fun m => List.ofFn m
  else none

/-- `crypto.encrypt`: canonicalize `unicode` input to UTF-8 bytes and
apply the hybrid cipher of the external collaborator. -/
def encrypt (E : Externals) (data : PyStr) (key : Nat) : ByteStr :=
  E.enc (pyToBytes data) key

/-- `crypto.encode`: compress the ciphertext, split it into 127-byte
chunks, protect each chunk and render everything as NumericText. -/
noncomputable def encode (E : Externals) (data : PyStr) (key : Nat) : List Nat :=
  (chunks (E.comp (encrypt E data key)) 127).foldl
    (fun out c => out ++ numencode (protect c)) []

/-- The decode loop of `crypto.decode`: decode each 255-byte block in
order and concatenate; any failing block aborts the whole call. -/
noncomputable def decodeChunks : List ByteStr → Option ByteStr
  | [] => some []
  | c :: cs =>
    (getprotected c).bind fun d =>
      (decodeChunks cs).map fun rest => d ++ rest

/-- `crypto.decode`: NumericText to bytes, 255-byte blocks through the
block decoder, then decompress and decrypt; the first failing stage
aborts (`none` propagates through the binds). -/
noncomputable def decode (E : Externals) (data : List Nat) (key : Nat) : Option ByteStr :=
  (numdecode data).bind fun buf =>
    (decodeChunks (chunks buf 255)).bind fun buf2 =>
      (E.uncomp buf2).bind fun z => E.dec z key

end crypto

/-- XOR of two bytes. -/
def byteXor (a b : Byte) : Byte :=
  ⟨a.val ^^^ b.val, by
    have ha := a.isLt
    have hb := b.isLt
    have h2 : a.val ^^^ b.val < 2 ^ 8 :=
      Nat.xor_lt_two_pow (by norm_num) (by norm_num)
    norm_num at h2
    exact h2⟩

/-- Modelled from the spec: the symmetric cipher collaborators absent from
the sources — `hashlib.sha1` digest derivation and the Blowfish CTR
keystream.  The keystream depends only on the derived digest and the
counter position, exactly as in `rnet_bf` (`initCTR` starts the counter
deterministically). -/
structure BFModel where
  digest : List Nat → List Nat
  keystream : List Nat → Nat → Byte

namespace rnet_bf

/-- `rnet_bf.encrypt`: derive the digest of the password, start the CTR
keystream at its deterministic origin, and XOR it into the data. -/
def encrypt (M : BFModel) (key : List Nat) (data : ByteStr) : ByteStr :=
  List.ofFn fun i : Fin data.length =>
    byteXor (data.get i) (M.keystream (M.digest key) i.val)

/-- `rnet_bf.decrypt`: identical keystream XOR (CTR decryption). -/
def decrypt (M : BFModel) (key : List Nat) (edata : ByteStr) : ByteStr :=
  List.ofFn fun i : Fin edata.length =>
    byteXor (edata.get i) (M.keystream (M.digest key) i.val)

end rnet_bf

/-! ### Token machinery for the NumericText codec -/

theorem splitSp_cons_space (cs : List Nat) : splitSp (32 :: cs) = [] :: splitSp cs := by
  simp [splitSp]

theorem splitSp_cons_ne (c : Nat) (cs : List Nat) (hc : c ≠ 32) (t : List Nat)
    (ts : List (List Nat)) (h : splitSp cs = t :: ts) :
    splitSp (c :: cs) = (c :: t) :: ts := by
  simp [splitSp, hc, h]

theorem splitSp_ne_nil (l : List Nat) : splitSp l ≠ [] := by
  induction l with
  | nil => simp [splitSp]
  | cons c cs ih =>
    by_cases hc : c = 32
    · subst hc; rw [splitSp_cons_space]; simp
    · obtain ⟨t, ts, h⟩ := List.exists_cons_of_ne_nil ih
      rw [splitSp_cons_ne c cs hc t ts h]; simp

theorem splitSp_append_space (t r : List Nat) (ht : 32 ∉ t) :
    splitSp (t ++ 32 :: r) = t :: splitSp r := by
  induction t with
  | nil => simpa using splitSp_cons_space r
  | cons c cs ih =>
    have hc : c ≠ 32 := fun h => ht (by simp [h])
    have ih2 := ih fun h => ht (List.mem_cons_of_mem c h)
    simpa using splitSp_cons_ne c (cs ++ 32 :: r) hc cs (splitSp r) ih2

theorem splitSp_no_space (t : List Nat) (ht : 32 ∉ t) : splitSp t = [t] := by
  induction t with
  | nil => rfl
  | cons c cs ih =>
    have hc : c ≠ 32 := fun h => ht (by simp [h])
    have ih2 := ih fun h => ht (List.mem_cons_of_mem c h)
    simpa using splitSp_cons_ne c cs hc cs [] ih2

theorem pyStrip_nil : pyStrip [] = [] := rfl

theorem pyStrip_ws_cons (w : Nat) (t : List Nat) (hw : isWS w = true) :
    pyStrip (w :: t) = pyStrip t := by
  simp [pyStrip, List.dropWhile_cons, hw]

theorem pyStrip_append_ws (t p : List Nat) (hp : ∀ c ∈ p, isWS c = true) :
    pyStrip (t ++ p) = pyStrip t := by
  unfold pyStrip
  rw [List.dropWhile_append]
  by_cases he : (t.dropWhile isWS).isEmpty
  · have ht : t.dropWhile isWS = [] := by
      cases h : t.dropWhile isWS with
      | nil => rfl
      | cons a l => rw [h] at he; simp at he
    have hpp : p.dropWhile isWS = [] := List.dropWhile_eq_nil_iff.mpr hp
    rw [if_pos he, ht, hpp]
  · rw [if_neg he]
    have ht : t.dropWhile isWS ≠ [] := by
      intro h; rw [h] at he; simp at he
    rw [List.reverse_append]
    rw [List.dropWhile_append_of_pos (by intro a ha; exact hp a (List.mem_reverse.mp ha))]

theorem pyStrip_all_ws (p : List Nat) (hp : ∀ c ∈ p, isWS c = true) : pyStrip p = [] := by
  have := pyStrip_append_ws [] p hp
  simpa using this

set_option maxRecDepth 100000 in
theorem pyStrip_tok3 : ∀ d : Byte, pyStrip (tok3 d) = tok3 d := by decide

set_option maxRecDepth 100000 in
theorem pyInt_tok3 : ∀ d : Byte, pyInt (tok3 d) = some (d.val : Int) := by decide

set_option maxRecDepth 100000 in
theorem pyChr_val : ∀ d : Byte, pyChr (d.val : Int) = some d := by decide

set_option maxRecDepth 100000 in
theorem tok3_ne_nil : ∀ d : Byte, tok3 d ≠ [] := by decide

set_option maxRecDepth 100000 in
theorem space_not_mem_tok3 : ∀ d : Byte, 32 ∉ tok3 d := by decide

theorem decTokens_skip (p : List Nat) (ps : List (List Nat)) (h : pyStrip p = []) :
    decTokens (p :: ps) = decTokens ps := by
  simp [decTokens, h]

theorem decTokens_tok (p : List Nat) (ps : List (List Nat)) (d : Byte)
    (h : pyStrip p = tok3 d) :
    decTokens (p :: ps) = (decTokens ps).map (fun r => d :: r) := by
  rw [decTokens, h, if_neg (tok3_ne_nil d), pyInt_tok3 d]
  simp [pyChr_val d]

theorem decTokens_congr (p q : List Nat) (ps : List (List Nat))
    (h : pyStrip p = pyStrip q) :
    decTokens (p :: ps) = decTokens (q :: ps) := by
  rw [decTokens, h, decTokens]

theorem decTokens_splitSp_ws (w : Nat) (Y : List Nat) (hw : isWS w = true) :
    decTokens (splitSp (w :: Y)) = decTokens (splitSp Y) := by
  by_cases h32 : w = 32
  · subst h32
    rw [splitSp_cons_space]
    exact decTokens_skip _ _ pyStrip_nil
  · obtain ⟨t, ts, h⟩ := List.exists_cons_of_ne_nil (splitSp_ne_nil Y)
    rw [splitSp_cons_ne w Y h32 t ts h, h]
    exact decTokens_congr _ _ _ (pyStrip_ws_cons w t hw)

theorem decTokens_splitSp_wsrun (w Y : List Nat) (hw : ∀ c ∈ w, isWS c = true) :
    decTokens (splitSp (w ++ Y)) = decTokens (splitSp Y) := by
  induction w with
  | nil => rfl
  | cons c cs ih =>
    rw [List.cons_append, decTokens_splitSp_ws c _ (hw c (by simp))]
    exact ih fun x hx => hw x (by simp [hx])

theorem decTokens_numencAux (w : ByteStr) (c : Nat) (R : List Nat) :
    decTokens (splitSp (crypto.numencAux c w ++ R)) =
      (decTokens (splitSp R)).map (fun r => w ++ r) := by
  induction w generalizing c with
  | nil =>
    rw [crypto.numencAux, List.nil_append]
    cases decTokens (splitSp R) <;> simp
  | cons d ds ih =>
    rw [crypto.numencAux]
    have hassoc :
        (tok3 d ++ 32 :: (if c + 1 > 10 then 10 :: crypto.numencAux 0 ds
              else crypto.numencAux (c + 1) ds)) ++ R =
          tok3 d ++ 32 :: ((if c + 1 > 10 then 10 :: crypto.numencAux 0 ds
              else crypto.numencAux (c + 1) ds) ++ R) := by
      simp
    rw [hassoc, splitSp_append_space _ _ (space_not_mem_tok3 d),
      decTokens_tok _ _ d (pyStrip_tok3 d)]
    by_cases hc : c + 1 > 10
    · rw [if_pos hc, List.cons_append, decTokens_splitSp_ws 10 _ (by decide), ih 0]
      cases decTokens (splitSp R) <;> simp
    · rw [if_neg hc, ih (c + 1)]
      cases decTokens (splitSp R) <;> simp

theorem decTokens_numencode (w : ByteStr) (R : List Nat) :
    decTokens (splitSp (crypto.numencode w ++ R)) =
      (decTokens (splitSp R)).map (fun r => w ++ r) := by
  rw [crypto.numencode, List.append_assoc, List.singleton_append,
    decTokens_numencAux, decTokens_splitSp_ws 10 R (by decide)]

theorem decTokens_splitSp_nil : decTokens (splitSp []) = some [] := rfl

theorem numdecode_numencode (w : ByteStr) :
    crypto.numdecode (crypto.numencode w) = some w := by
  have h := decTokens_numencode w []
  rw [List.append_nil, decTokens_splitSp_nil] at h
  rw [crypto.numdecode, h]
  simp

theorem numdecode_flatten (ws : List ByteStr) :
    crypto.numdecode ((ws.map crypto.numencode).flatten) = some ws.flatten := by
  induction ws with
  | nil => rfl
  | cons w rest ih =>
    rw [List.map_cons, List.flatten_cons, crypto.numdecode, decTokens_numencode]
    rw [crypto.numdecode] at ih
    rw [ih]
    simp

theorem exists_first_space (s : List Nat) (h : 32 ∈ s) :
    ∃ p q, s = p ++ 32 :: q ∧ 32 ∉ p := by
  induction s with
  | nil => simp at h
  | cons c cs ih =>
    by_cases hc : c = 32
    · exact ⟨[], cs, by simp [hc], by simp⟩
    · have hcs : 32 ∈ cs := by
        rcases List.mem_cons.mp h with h1 | h1
        · exact absurd h1.symm hc
        · exact h1
      obtain ⟨p, q, hpq, hp⟩ := ih hcs
      refine ⟨c :: p, q, by simp [hpq], ?_⟩
      intro hmem
      rcases List.mem_cons.mp hmem with h1 | h1
      · exact hc h1.symm
      · exact hp h1

theorem decTokens_tail_none (p : List Nat) (ps : List (List Nat))
    (h : decTokens ps = none) : decTokens (p :: ps) = none := by
  rw [decTokens]
  by_cases he : pyStrip p = []
  · rw [if_pos he]; exact h
  · rw [if_neg he]
    cases hv : pyInt (pyStrip p) with
    | none => rfl
    | some v =>
      cases hcv : pyChr v with
      | none => simp [hcv]
      | some b => simp [hcv, h]

theorem pyChr_none_of_out (v : Int) (h : v < 0 ∨ 255 < v) : pyChr v = none := by
  rw [pyChr, dif_neg]
  omega

theorem decTokens_head_bad (p : List Nat) (ps : List (List Nat))
    (he : pyStrip p ≠ [])
    (hbad : pyInt (pyStrip p) = none ∨
      ∃ v, pyInt (pyStrip p) = some v ∧ (v < 0 ∨ 255 < v)) :
    decTokens (p :: ps) = none := by
  rw [decTokens, if_neg he]
  rcases hbad with h1 | ⟨v, h1, h2⟩
  · rw [h1]; rfl
  · rw [h1]
    simp [pyChr_none_of_out v h2]

/-! ### Properties of crypto.chunks -/

theorem chunks_nil {α : Type*} (n : Nat) : crypto.chunks ([] : List α) n = [] := by
  unfold crypto.chunks
  have h0 : List.length ([] : List α) = 0 := rfl
  rw [h0]
  have h : (0 + n - 1) / n = 0 := by
    cases n with
    | zero => rfl
    | succ m => exact Nat.div_eq_of_lt (by omega)
  rw [h]
  rfl

theorem chunks_cons {α : Type*} (data : List α) (n : Nat) (hn : 0 < n) (hd : data ≠ []) :
    crypto.chunks data n = data.take n :: crypto.chunks (data.drop n) n := by
  unfold crypto.chunks
  have hL : 0 < data.length := List.length_pos.mpr hd
  have hcount : (data.length + n - 1) / n = (data.length - 1) / n + 1 := by
    have h1 : data.length + n - 1 = (data.length - 1) + n := by omega
    rw [h1, Nat.add_div_right _ hn]
  have hcount2 : ((data.drop n).length + n - 1) / n = (data.length - 1) / n := by
    rw [List.length_drop]
    by_cases hLn : data.length ≤ n
    · have h1 : data.length - n = 0 := by omega
      rw [h1]
      have h2 : (0 + n - 1) / n = 0 := Nat.div_eq_of_lt (by omega)
      have h3 : (data.length - 1) / n = 0 := Nat.div_eq_of_lt (by omega)
      rw [h2, h3]
    · push_neg at hLn
      have h1 : data.length - n + n - 1 = (data.length - n - 1) + n := by omega
      have h2 : data.length - 1 = (data.length - n - 1) + n := by omega
      rw [h1, Nat.add_div_right _ hn, h2, Nat.add_div_right _ hn]
  rw [hcount, hcount2, List.range_succ_eq_map]
  rw [List.map_cons, List.map_map]
  congr 1
  · simp
  · apply List.map_congr_left
    intro k _
    have h1 : (k + 1) * n = n + k * n := by ring
    simp only [Function.comp]
    rw [show Nat.succ k = k + 1 from rfl, h1, ← List.drop_drop]

theorem chunks_ne_nil {α : Type*} (data : List α) (n : Nat) (hn : 0 < n)
    (hd : data ≠ []) : crypto.chunks data n ≠ [] := by
  rw [chunks_cons data n hn hd]
  simp

theorem chunks_flatten {α : Type*} (n : Nat) (hn : 0 < n) (data : List α) :
    (crypto.chunks data n).flatten = data := by
  by_cases hd : data = []
  · subst hd; rw [chunks_nil]; rfl
  · rw [chunks_cons data n hn hd, List.flatten_cons, chunks_flatten n hn (data.drop n)]
    exact List.take_append_drop n data
termination_by data.length
decreasing_by
  rw [List.length_drop]
  have := List.length_pos.mpr hd
  omega

theorem chunks_full {α : Type*} (n : Nat) (hn : 0 < n) (data : List α)
    (hdvd : n ∣ data.length) : ∀ c ∈ crypto.chunks data n, c.length = n := by
  by_cases hd : data = []
  · subst hd; rw [chunks_nil]; simp
  · have hL : 0 < data.length := List.length_pos.mpr hd
    have hnL : n ≤ data.length := Nat.le_of_dvd hL hdvd
    rw [chunks_cons data n hn hd]
    intro c hc
    rcases List.mem_cons.mp hc with h1 | h1
    · rw [h1, List.length_take]
      omega
    · have hdvd2 : n ∣ (data.drop n).length := by
        rw [List.length_drop]
        exact Nat.dvd_sub' hdvd (dvd_refl n)
      exact chunks_full n hn (data.drop n) hdvd2 c h1
termination_by data.length
decreasing_by
  rw [List.length_drop]
  omega

theorem chunks_parts {α : Type*} (n : Nat) (hn : 0 < n) (data : List α) :
    (∀ c ∈ (crypto.chunks data n).dropLast, c.length = n) ∧
      (∀ h : crypto.chunks data n ≠ [],
        1 ≤ ((crypto.chunks data n).getLast h).length ∧
          ((crypto.chunks data n).getLast h).length ≤ n) := by
  by_cases hd : data = []
  · subst hd
    constructor
    · rw [chunks_nil]; simp
    · intro h; exact absurd (chunks_nil n) h
  · have hL : 0 < data.length := List.length_pos.mpr hd
    rw [chunks_cons data n hn hd]
    by_cases hrest : data.drop n = []
    · rw [hrest, chunks_nil]
      constructor
      · simp
      · intro h
        rw [List.getLast_singleton]
        rw [List.length_take]
        omega
    · have hcne : crypto.chunks (data.drop n) n ≠ [] := chunks_ne_nil _ n hn hrest
      have hLn : n < data.length := by
        by_contra hle
        push_neg at hle
        have : (data.drop n).length = 0 := by rw [List.length_drop]; omega
        exact hrest (List.length_eq_zero.mp this)
      obtain ⟨r, rs, hr⟩ := List.exists_cons_of_ne_nil hcne
      have ih := chunks_parts n hn (data.drop n)
      constructor
      · rw [hr, List.dropLast_cons₂]
        intro c hc
        rcases List.mem_cons.mp hc with h1 | h1
        · rw [h1, List.length_take]; omega
        · exact ih.1 c (by rw [hr]; exact h1)
      · intro h
        rw [List.getLast_cons hcne]
        exact ih.2 hcne
termination_by data.length
decreasing_by
  rw [List.length_drop]
  omega

theorem getD_ofFn {α : Type*} (d : α) {n : Nat} (f : Fin n → α) (i : Nat) (h : i < n) :
    (List.ofFn f).getD i d = f ⟨i, h⟩ := by
  rw [List.getD_eq_getElem _ _ (by simpa using h)]
  simp

/-! ### Claims about the NumericText codec and the helpers -/

/-- Claim C4 (confirmed): the numeric text codec round-trips exactly:
`crypto.numdecode (crypto.numencode b) = b` for every byte string `b`,
including bytes 0x00 and 0xFF. -/
theorem claim4_numcodec_roundtrip (b : ByteStr) :
    crypto.numdecode (crypto.numencode b) = some b :=
  numdecode_numencode b

/-- Claim C5 (corrected, amended): `crypto.numdecode` recovers `b` from
its 3-digit tokens separated by arbitrary runs of whitespace, provided
every separating run contains at least one space character; the decoder
splits on single spaces only, so a separating run without a space merges
two tokens into one fragment and `int` raises on it. -/
theorem claim5_ws_runs_with_space (b : ByteStr) (seps : List (List Nat))
    (hlen : seps.length = b.length - 1)
    (hsep : ∀ s ∈ seps, (∀ c ∈ s, isWS c = true) ∧ 32 ∈ s) :
    crypto.numdecode (interleave (b.map tok3) seps) = some b := by
  induction b generalizing seps with
  | nil =>
    have h0 : seps.length = 0 := by simpa using hlen
    have hseps : seps = [] := List.length_eq_zero.mp h0
    subst hseps
    rfl
  | cons d bs ih =>
    cases bs with
    | nil =>
      have h0 : seps.length = 0 := by simpa using hlen
      have hseps : seps = [] := List.length_eq_zero.mp h0
      subst hseps
      rw [show interleave (([d] : ByteStr).map tok3) [] = tok3 d from rfl]
      rw [crypto.numdecode, splitSp_no_space _ (space_not_mem_tok3 d),
        decTokens_tok _ _ d (pyStrip_tok3 d)]
      rfl
    | cons d2 bs2 =>
      obtain ⟨s, ss, hs⟩ : ∃ s ss, seps = s :: ss := by
        cases seps with
        | nil => simp at hlen
        | cons s ss => exact ⟨s, ss, rfl⟩
      subst hs
      obtain ⟨hws, hsp⟩ := hsep s (by simp)
      obtain ⟨p, q, hpq, hp⟩ := exists_first_space s hsp
      have hstream : interleave ((d :: d2 :: bs2).map tok3) (s :: ss) =
          (tok3 d ++ p) ++ 32 :: (q ++ interleave ((d2 :: bs2).map tok3) ss) := by
        rw [show interleave ((d :: d2 :: bs2).map tok3) (s :: ss) =
            tok3 d ++ s ++ interleave ((d2 :: bs2).map tok3) ss from by
          rw [List.map_cons, List.map_cons]; rfl]
        rw [hpq]
        simp [List.append_assoc]
      rw [crypto.numdecode, hstream]
      rw [splitSp_append_space _ _ (by
        intro hmem
        rcases List.mem_append.mp hmem with h1 | h1
        · exact space_not_mem_tok3 d h1
        · exact hp h1)]
      rw [decTokens_tok _ _ d (by
        rw [pyStrip_append_ws _ _ (fun c hc => hws c (by rw [hpq]; exact List.mem_append_left _ hc))]
        exact pyStrip_tok3 d)]
      rw [decTokens_splitSp_wsrun q _ (fun c hc => hws c (by rw [hpq]; simp [hc]))]
      have hlen2 : ss.length = (d2 :: bs2).length - 1 := by
        simp at hlen ⊢
        omega
      have ihh := ih ss hlen2 (fun s2 hs2 => hsep s2 (by simp [hs2]))
      rw [crypto.numdecode] at ihh
      rw [ihh]
      rfl

set_option maxRecDepth 100000 in
/-- Counterexample to claim C5 as stated: the tokens of the bytes
`[0, 1]` separated by a single tab — a non-empty whitespace run — do not
decode (the decoder splits on single spaces only, so `int` receives the
merged fragment and raises); the claim predicts `some [0, 1]`. -/
theorem claim5_counterexample :
    crypto.numdecode (interleave (([0, 1] : ByteStr).map tok3) [[9]]) = none ∧
      crypto.numdecode (interleave (([0, 1] : ByteStr).map tok3) [[9]]) ≠
        some ([0, 1] : ByteStr) := by
  constructor
  · decide
  · decide

set_option maxRecDepth 100000 in
/-- Witness for the amended claim C5: bytes `[0, 255]` separated by the
whitespace run newline-space-tab. -/
theorem claim5_witness :
    (([[10, 32, 9]] : List (List Nat)).length = ([0, 255] : ByteStr).length - 1 ∧
      ∀ s ∈ ([[10, 32, 9]] : List (List Nat)), (∀ c ∈ s, isWS c = true) ∧ 32 ∈ s) ∧
      crypto.numdecode (interleave (([0, 255] : ByteStr).map tok3) [[10, 32, 9]]) =
        some ([0, 255] : ByteStr) :=
  ⟨⟨by decide, by decide⟩,
    claim5_ws_runs_with_space [0, 255] [[10, 32, 9]] (by decide) (by decide)⟩

/-- Claim C6 (confirmed): `crypto.numdecode` raises on any input text that
contains a non-numeric token or a numeric token outside `[0, 255]`.  In
the source the raised error is the `ValueError` of `int`/`chr` (named
`InvalidEncoding` by the spec); raising is modelled as `none`. -/
theorem claim6_bad_token_raises (s t : List Nat) (ht : t ∈ pyTokens s)
    (hbad : pyInt t = none ∨ ∃ v, pyInt t = some v ∧ (v < 0 ∨ 255 < v)) :
    crypto.numdecode s = none := by
  rw [crypto.numdecode]
  rw [pyTokens] at ht
  generalize splitSp s = ps at ht ⊢
  induction ps with
  | nil => simp at ht
  | cons f fs ih =>
    by_cases he : pyStrip f = []
    · rw [decTokens_skip _ _ he]
      apply ih
      simpa [he] using ht
    · rw [List.map_cons, List.filter_cons] at ht
      simp only [he, decide_not] at ht
      rcases (by simpa using ht :
          t = pyStrip f ∨ (∃ a ∈ fs, pyStrip a = t) ∧ ¬t = []) with h1 | ⟨h1, h2⟩
      · subst h1
        exact decTokens_head_bad f fs he hbad
      · apply decTokens_tail_none
        apply ih
        rw [List.mem_filter]
        refine ⟨List.mem_map.mpr ?_, by simpa using h2⟩
        obtain ⟨a, ha, hat⟩ := h1
        exact ⟨a, ha, hat⟩

set_option maxRecDepth 100000 in
/-- Witness for claim C6 at the concrete text `"000 x"`. -/
theorem claim6_witness :
    ([120] ∈ pyTokens [48, 48, 48, 32, 120] ∧ pyInt [120] = none) ∧
      crypto.numdecode [48, 48, 48, 32, 120] = none :=
  ⟨⟨by decide, by decide⟩,
    claim6_bad_token_raises [48, 48, 48, 32, 120] [120] (by decide) (Or.inl (by decide))⟩

/-- Claim C10 (confirmed): for every byte string and every `n > 0`,
`crypto.chunks` yields the slices in order, their concatenation is the
input, every chunk but the last has length exactly `n`, the last has
length between 1 and `n`, and an empty input yields no chunks. -/
theorem claim10_chunks_spec (data : ByteStr) (n : Nat) (hn : 0 < n) :
    (crypto.chunks data n).flatten = data ∧
      (∀ c ∈ (crypto.chunks data n).dropLast, c.length = n) ∧
      (∀ h : crypto.chunks data n ≠ [],
        1 ≤ ((crypto.chunks data n).getLast h).length ∧
          ((crypto.chunks data n).getLast h).length ≤ n) ∧
      (data = [] → crypto.chunks data n = []) :=
  ⟨chunks_flatten n hn data, (chunks_parts n hn data).1, (chunks_parts n hn data).2,
    fun h => by rw [h]; exact chunks_nil n⟩

set_option maxRecDepth 100000 in
/-- Witness for claim C10 at `data = [0, 1, 2, 3, 4]`, `n = 2`. -/
theorem claim10_witness :
    0 < 2 ∧
      ((crypto.chunks ([0, 1, 2, 3, 4] : ByteStr) 2).flatten = [0, 1, 2, 3, 4] ∧
        (∀ c ∈ (crypto.chunks ([0, 1, 2, 3, 4] : ByteStr) 2).dropLast, c.length = 2) ∧
        (∀ h : crypto.chunks ([0, 1, 2, 3, 4] : ByteStr) 2 ≠ [],
          1 ≤ ((crypto.chunks ([0, 1, 2, 3, 4] : ByteStr) 2).getLast h).length ∧
            ((crypto.chunks ([0, 1, 2, 3, 4] : ByteStr) 2).getLast h).length ≤ 2) ∧
        (([0, 1, 2, 3, 4] : ByteStr) = [] → crypto.chunks ([0, 1, 2, 3, 4] : ByteStr) 2 = [])) :=
  ⟨by decide, claim10_chunks_spec [0, 1, 2, 3, 4] 2 (by decide)⟩

/-- Claim C9 (confirmed, spec-modelled): the symmetric path of `rnet_bf`
is deterministic — the keystream is a function of the password digest and
the counter position only, for any digest and keystream model — and the
ciphertexts of two plaintexts under one password are XOR masks of the
plaintexts by the same keystream prefix. -/
theorem claim9_bf_keystream_reuse (M : BFModel) (p : List Nat) (x y : ByteStr)
    (i : Nat) (hx : i < x.length) (hy : i < y.length) :
    rnet_bf.encrypt M p x = rnet_bf.encrypt M p x ∧
      byteXor ((rnet_bf.encrypt M p x).getD i 0) (x.getD i 0) =
        byteXor ((rnet_bf.encrypt M p y).getD i 0) (y.getD i 0) := by
  refine ⟨rfl, ?_⟩
  have hmask : ∀ z : ByteStr, ∀ hz : i < z.length,
      byteXor ((rnet_bf.encrypt M p z).getD i 0) (z.getD i 0) =
        M.keystream (M.digest p) i := by
    intro z hz
    rw [rnet_bf.encrypt, getD_ofFn 0 _ i hz, List.getD_eq_getElem _ _ hz]
    apply Fin.ext
    show (z.get ⟨i, hz⟩).val ^^^ (M.keystream (M.digest p) i).val ^^^ (z[i]).val = _
    rw [show z[i] = z.get ⟨i, hz⟩ from rfl]
    rw [Nat.xor_assoc, Nat.xor_comm (M.keystream (M.digest p) i).val, ← Nat.xor_assoc]
    rw [Nat.xor_self, Nat.zero_xor]
  rw [hmask x hx, hmask y hy]

/-- Witness for claim C9 with the zero keystream model at password `[]`. -/
theorem claim9_witness :
    (0 : Nat) < 1 ∧ (0 : Nat) < 1 ∧
      (rnet_bf.encrypt ⟨fun _ => [], fun _ _ => 0⟩ [] [0] =
          rnet_bf.encrypt ⟨fun _ => [], fun _ _ => 0⟩ [] [0] ∧
        byteXor ((rnet_bf.encrypt ⟨fun _ => [], fun _ _ => 0⟩ [] [0]).getD 0 0)
            (([0] : ByteStr).getD 0 0) =
          byteXor ((rnet_bf.encrypt ⟨fun _ => [], fun _ _ => 0⟩ [] [255]).getD 0 0)
            (([255] : ByteStr).getD 0 0)) :=
  ⟨by decide, by decide,
    claim9_bf_keystream_reuse ⟨fun _ => [], fun _ _ => 0⟩ [] [0] [255] 0 (by decide) (by decide)⟩

/-! ### The spec-modelled (255,127) block code -/

theorem pt_inj : Function.Injective pt := by
  intro i j h
  rw [pt, pt] at h
  have h2 := byteEquiv.symm.injective h
  have h3 := congrArg Fin.val h2
  exact Fin.ext h3

theorem node_injOn : Set.InjOn node ↑(Finset.univ : Finset (Fin 127)) := by
  intro i _ j _ h
  rw [node, node] at h
  have h2 := congrArg Fin.val (pt_inj h)
  exact Fin.ext h2

theorem rsPoly_degree_lt (m : Msg) : (rsPoly m).degree < (127 : Nat) := by
  have h := Lagrange.degree_interpolate_lt (msgF m) node_injOn
  rw [Finset.card_univ, Fintype.card_fin] at h
  exact_mod_cast h

theorem codeF_node (m : Msg) (j : Fin 127) :
    codeF m ⟨j.val, Nat.lt_trans j.isLt (by norm_num)⟩ = msgF m j := by
  have h := Lagrange.eval_interpolate_at_node (msgF m) node_injOn (Finset.mem_univ j)
  exact h

theorem rsPoly_inj {m m' : Msg} (h : rsPoly m = rsPoly m') : m = m' := by
  funext j
  have hval : msgF m j = msgF m' j := by
    rw [← codeF_node m j, ← codeF_node m' j, codeF, codeF, h]
  exact byteEquiv.symm.injective hval

theorem agree_card_le (m m' : Msg) (hne : m ≠ m') :
    ((Finset.univ : Finset (Fin 255)).filter fun i => protectF m i = protectF m' i).card ≤ 126 := by
  classical
  have hPne : rsPoly m - rsPoly m' ≠ 0 :=
    sub_ne_zero_of_ne fun hc => hne (rsPoly_inj hc)
  have hdeg : (rsPoly m - rsPoly m').natDegree ≤ 126 := by
    have hlt : (rsPoly m - rsPoly m').degree < ((127 : Nat) : WithBot Nat) :=
      lt_of_le_of_lt (Polynomial.degree_sub_le _ _)
        (max_lt (rsPoly_degree_lt m) (rsPoly_degree_lt m'))
    have h2 := (Polynomial.natDegree_lt_iff_degree_lt hPne).mpr hlt
    omega
  have hmaps : ∀ i ∈ (Finset.univ : Finset (Fin 255)).filter
      (fun i => protectF m i = protectF m' i),
      pt i ∈ (rsPoly m - rsPoly m').roots.toFinset := by
    intro i hi
    rw [Multiset.mem_toFinset, Polynomial.mem_roots hPne]
    have hagree : codeF m i = codeF m' i :=
      byteEquiv.injective (Finset.mem_filter.mp hi).2
    rw [Polynomial.IsRoot, Polynomial.eval_sub]
    rw [codeF, codeF] at hagree
    rw [hagree, sub_self]
  have hcard := Finset.card_le_card_of_injOn pt hmaps fun a _ b _ hab => pt_inj hab
  have hcard2 : (rsPoly m - rsPoly m').roots.toFinset.card ≤ (rsPoly m - rsPoly m').natDegree :=
    le_trans (Multiset.toFinset_card_le _) (Polynomial.card_roots' _)
  omega

theorem protectF_dist (m m' : Msg) (hne : m ≠ m') :
    129 ≤ hammingDist (protectF m) (protectF m') := by
  classical
  have hsplit : ((Finset.univ : Finset (Fin 255)).filter
        (fun i => protectF m i = protectF m' i)).card +
      ((Finset.univ : Finset (Fin 255)).filter
        (fun i => ¬ protectF m i = protectF m' i)).card =
      (Finset.univ : Finset (Fin 255)).card :=
    Finset.filter_card_add_filter_neg_card_eq_card _
  have hcard : (Finset.univ : Finset (Fin 255)).card = 255 := by
    rw [Finset.card_univ, Fintype.card_fin]
  have hagree := agree_card_le m m' hne
  have hd : hammingDist (protectF m) (protectF m') =
      ((Finset.univ : Finset (Fin 255)).filter
        (fun i => ¬ protectF m i = protectF m' i)).card := by
    rw [hammingDist]
  omega

theorem decodeF_correct (m : Msg) (w : Codeword)
    (h : hammingDist (protectF m) w ≤ 64) : decodeF w = some m := by
  have hex : ∃ m' : Msg, hammingDist (protectF m') w ≤ 64 := ⟨m, h⟩
  rw [decodeF, dif_pos hex]
  congr 1
  by_contra hne
  have hspec := hex.choose_spec
  have hcomm := hammingDist_comm (protectF m) w
  have htri := hammingDist_triangle (protectF hex.choose) w (protectF m)
  have hfar := protectF_dist hex.choose m hne
  omega

theorem decodeF_none_iff (w : Codeword) :
    decodeF w = none ↔ ∀ m : Msg, 64 < hammingDist (protectF m) w := by
  rw [decodeF]
  by_cases hex : ∃ m : Msg, hammingDist (protectF m) w ≤ 64
  · rw [dif_pos hex]
    constructor
    · intro hc
      exact absurd hc (by simp)
    · intro hall
      obtain ⟨m, hm⟩ := hex
      have := hall m
      omega
  · rw [dif_neg hex]
    push_neg at hex
    constructor
    · intro _ m
      have := hex m
      omega
    · intro _
      rfl

theorem protect_length (c : ByteStr) : (crypto.protect c).length = 255 := by
  rw [crypto.protect]
  exact List.length_ofFn _

theorem toWord_protect (c : ByteStr) : toWord (crypto.protect c) = protectF (toMsg c) := by
  funext i
  rw [toWord, crypto.protect, getD_ofFn 0 _ i.val i.isLt, Fin.eta]

theorem toMsg_ofFn (m : Msg) : toMsg (List.ofFn m) = m := by
  funext j
  rw [toMsg, getD_ofFn 0 m j.val j.isLt, Fin.eta]

theorem ofFn_toMsg_pad (c : ByteStr) (hc : c.length ≤ 127) :
    List.ofFn (toMsg c) = c ++ List.replicate (127 - c.length) 0 := by
  apply List.ext_getElem
  · rw [List.length_ofFn, List.length_append, List.length_replicate]
    omega
  · intro i h1 h2
    rw [List.getElem_ofFn]
    rw [List.length_ofFn] at h1
    have hval : toMsg c ⟨i, h1⟩ = c.getD i 0 := rfl
    rw [hval]
    by_cases hi : i < c.length
    · rw [List.getD_eq_getElem _ _ hi, List.getElem_append_left hi]
    · rw [List.getD_eq_default _ _ (by omega), List.getElem_append_right (by omega)]
      rw [List.getElem_replicate]

theorem ofFn_toMsg (c : ByteStr) (hc : c.length = 127) : List.ofFn (toMsg c) = c := by
  rw [ofFn_toMsg_pad c (by omega), hc]
  simp

theorem getprotected_protect (c : ByteStr) :
    crypto.getprotected (crypto.protect c) = some (List.ofFn (toMsg c)) := by
  rw [crypto.getprotected, if_pos (protect_length c), toWord_protect]
  rw [decodeF_correct (toMsg c) _ (by rw [hammingDist_self]; omega)]
  rfl

/-- Claim C7 (confirmed, spec-modelled): `crypto.protect` returns a
codeword of exactly 255 bytes for every chunk of at most 127 bytes,
including strictly shorter chunks. -/
theorem claim7_protect_length (c : ByteStr) (_hc : c.length ≤ 127) :
    (crypto.protect c).length = 255 :=
  protect_length c

/-- Witness for claim C7 at the empty chunk. -/
theorem claim7_witness :
    ([] : ByteStr).length ≤ 127 ∧ (crypto.protect ([] : ByteStr)).length = 255 :=
  ⟨by decide, claim7_protect_length [] (by decide)⟩

/-- Claim C2 (corrected, amended): for chunks of length exactly 127,
decoding inverts encoding and corrects up to 64 altered symbols: for every
255-byte word within 64 alterations of `crypto.protect c` — including the
uncorrupted codeword itself — `crypto.getprotected` returns `c` exactly.
For shorter chunks the zero-padding convention loses the length, so the
round trip cannot hold for every chunk of at most 127 bytes (see the
counterexample); indeed no (255,127) code over 256-symbol codewords can
both correct 64 errors and invert encoding on all of the strictly more
than 256^127 chunks of length at most 127. -/
theorem claim2_decode_corrects (c w : ByteStr) (hc : c.length = 127)
    (hw : w.length = 255) (halt : alterations (crypto.protect c) w ≤ 64) :
    crypto.getprotected w = some c := by
  rw [crypto.getprotected, if_pos hw]
  have hdist : hammingDist (protectF (toMsg c)) (toWord w) ≤ 64 := by
    rw [alterations, toWord_protect] at halt
    exact halt
  rw [decodeF_correct (toMsg c) (toWord w) hdist]
  show some (List.ofFn (toMsg c)) = some c
  rw [ofFn_toMsg c hc]

/-- Counterexample to claim C2 as stated: the chunk `[0]` (length 1 at
most 127) does not round-trip — decoding its codeword returns the
zero-padded 127-byte chunk, not `[0]`. -/
theorem claim2_counterexample :
    crypto.getprotected (crypto.protect ([0] : ByteStr)) =
        some (List.replicate 127 (0 : Byte)) ∧
      List.replicate 127 (0 : Byte) ≠ ([0] : ByteStr) := by
  constructor
  · rw [getprotected_protect]
    congr 1
  · decide

/-- Witness for the amended claim C2 at the all-zero 127-byte chunk and
its uncorrupted codeword. -/
theorem claim2_witness :
    (List.replicate 127 (0 : Byte)).length = 127 ∧
      (crypto.protect (List.replicate 127 (0 : Byte))).length = 255 ∧
      alterations (crypto.protect (List.replicate 127 (0 : Byte)))
          (crypto.protect (List.replicate 127 (0 : Byte))) ≤ 64 ∧
      crypto.getprotected (crypto.protect (List.replicate 127 (0 : Byte))) =
        some (List.replicate 127 (0 : Byte)) :=
  ⟨by decide, protect_length _, by rw [alterations, hammingDist_self]; omega,
    claim2_decode_corrects _ _ (by decide) (protect_length _)
      (by rw [alterations, hammingDist_self]; omega)⟩

/-- Claim C3 (corrected, amended): `crypto.getprotected` raises
`UncorrectableBlock` precisely when the received word lies more than 64
alterations away from the codeword of every 127-byte chunk; when more than
64 symbols of a codeword have been altered the decoder is not guaranteed
to raise — if the altered word lands within 64 alterations of a different
codeword it silently returns that different chunk (see the
counterexample). -/
theorem claim3_raise_iff_far (w : ByteStr) (hw : w.length = 255) :
    crypto.getprotected w = none ↔
      ∀ c : ByteStr, c.length = 127 → 64 < alterations (crypto.protect c) w := by
  rw [crypto.getprotected, if_pos hw]
  constructor
  · intro h c hc
    have hn : decodeF (toWord w) = none := by
      cases hd : decodeF (toWord w) with
      | none => rfl
      | some m => rw [hd] at h; simp at h
    have hall := (decodeF_none_iff (toWord w)).mp hn (toMsg c)
    rw [alterations, toWord_protect]
    exact hall
  · intro hall
    have hfar : ∀ m : Msg, 64 < hammingDist (protectF m) (toWord w) := by
      intro m
      have h2 := hall (List.ofFn m) (List.length_ofFn m)
      rw [alterations, toWord_protect, toMsg_ofFn] at h2
      exact h2
    rw [(decodeF_none_iff (toWord w)).mpr hfar]
    rfl

/-- Witness for the amended claim C3 at the all-zero 255-byte word. -/
theorem claim3_witness :
    (List.replicate 255 (0 : Byte)).length = 255 ∧
      (crypto.getprotected (List.replicate 255 (0 : Byte)) = none ↔
        ∀ c : ByteStr, c.length = 127 →
          64 < alterations (crypto.protect c) (List.replicate 255 (0 : Byte))) :=
  ⟨by decide, claim3_raise_iff_far _ (by decide)⟩

/-- Counterexample to claim C3 as stated: the codeword of the 127-byte
chunk starting with 1 differs from the codeword of the all-zero chunk in
more than 64 positions (in fact at least 129), yet `crypto.getprotected`
does not raise on it — it silently returns that different chunk. -/
theorem claim3_counterexample :
    64 < alterations (crypto.protect (List.replicate 127 (0 : Byte)))
        (crypto.protect ((1 : Byte) :: List.replicate 126 0)) ∧
      crypto.getprotected (crypto.protect ((1 : Byte) :: List.replicate 126 0)) =
        some ((1 : Byte) :: List.replicate 126 0) ∧
      ((1 : Byte) :: List.replicate 126 0) ≠ List.replicate 127 (0 : Byte) := by
  have hne : toMsg (List.replicate 127 (0 : Byte)) ≠ toMsg ((1 : Byte) :: List.replicate 126 0) := by
    intro hcontra
    have h0 := congrFun hcontra ⟨0, by norm_num⟩
    have h1 : toMsg (List.replicate 127 (0 : Byte)) ⟨0, by norm_num⟩ = (0 : Byte) := rfl
    have h2 : toMsg ((1 : Byte) :: List.replicate 126 0) ⟨0, by norm_num⟩ = (1 : Byte) := rfl
    rw [h1, h2] at h0
    exact absurd h0 (by decide)
  refine ⟨?_, ?_, ?_⟩
  · have hdist := protectF_dist _ _ hne
    rw [alterations, toWord_protect, toWord_protect]
    omega
  · rw [getprotected_protect]
    show some (List.ofFn (toMsg ((1 : Byte) :: List.replicate 126 0))) = _
    rw [ofFn_toMsg _ (by decide)]
  · decide

/-! ### The full pipeline -/

theorem foldl_append_eq_flatten {α β : Type*} (g : α → List β) (l : List α)
    (init : List β) :
    l.foldl (fun out c => out ++ g c) init = init ++ (l.map g).flatten := by
  induction l generalizing init with
  | nil => simp
  | cons c cs ih =>
    rw [List.foldl_cons, ih, List.map_cons, List.flatten_cons, List.append_assoc]

theorem chunks_flatten_uniform (ws : List ByteStr) (n : Nat) (hn : 0 < n)
    (hws : ∀ w ∈ ws, w.length = n) : crypto.chunks ws.flatten n = ws := by
  induction ws with
  | nil => rw [List.flatten_nil]; exact chunks_nil n
  | cons w rest ih =>
    have hw : w.length = n := hws w (by simp)
    have hlen : n ≤ ((w :: rest).flatten).length := by
      rw [List.flatten_cons, List.length_append, hw]
      omega
    have hne : (w :: rest).flatten ≠ [] := by
      intro hcontra
      rw [hcontra] at hlen
      simp at hlen
      omega
    rw [chunks_cons _ n hn hne, List.flatten_cons, List.take_left' hw, List.drop_left' hw]
    rw [ih fun x hx => hws x (by simp [hx])]

theorem decodeChunks_protect (cs : List ByteStr) (hcs : ∀ c ∈ cs, c.length = 127) :
    crypto.decodeChunks (cs.map crypto.protect) = some cs.flatten := by
  induction cs with
  | nil => rfl
  | cons c rest ih =>
    rw [List.map_cons, crypto.decodeChunks, getprotected_protect c,
      ih fun x hx => hcs x (by simp [hx])]
    rw [ofFn_toMsg c (hcs c (by simp))]
    simp

theorem pipeline_roundtrip (E : Externals) (pub priv : Nat) (b : ByteStr)
    (hcu : E.uncomp (E.comp (E.enc b pub)) = some (E.enc b pub))
    (hde : E.dec (E.enc b pub) priv = some b)
    (hlen : (E.comp (E.enc b pub)).length % 127 = 0) :
    crypto.decode E (crypto.encode E (PyStr.bytes b) pub) priv = some b := by
  have hdvd : (127 : Nat) ∣ (E.comp (E.enc b pub)).length := Nat.dvd_of_mod_eq_zero hlen
  have hfull := chunks_full 127 (by norm_num) (E.comp (E.enc b pub)) hdvd
  have hencode : crypto.encode E (PyStr.bytes b) pub =
      ((crypto.chunks (E.comp (E.enc b pub)) 127).map
        (fun c => crypto.numencode (crypto.protect c))).flatten := by
    rw [crypto.encode]
    rw [show crypto.encrypt E (PyStr.bytes b) pub = E.enc b pub from rfl]
    rw [foldl_append_eq_flatten, List.nil_append]
  have h1 : crypto.numdecode (((crypto.chunks (E.comp (E.enc b pub)) 127).map
      (fun c => crypto.numencode (crypto.protect c))).flatten) =
      some (((crypto.chunks (E.comp (E.enc b pub)) 127).map crypto.protect).flatten) := by
    have h := numdecode_flatten ((crypto.chunks (E.comp (E.enc b pub)) 127).map crypto.protect)
    rw [List.map_map] at h
    exact h
  have h2 : crypto.chunks (((crypto.chunks (E.comp (E.enc b pub)) 127).map
      crypto.protect).flatten) 255 =
      (crypto.chunks (E.comp (E.enc b pub)) 127).map crypto.protect :=
    chunks_flatten_uniform _ 255 (by norm_num) (by
      intro w hw
      obtain ⟨c, _, rfl⟩ := List.mem_map.mp hw
      exact protect_length c)
  rw [hencode, crypto.decode, h1, Option.some_bind, h2, decodeChunks_protect _ hfull,
    Option.some_bind, chunks_flatten 127 (by norm_num), hcu, Option.some_bind, hde]

/-- Claim C1 (corrected, amended): with compliant external collaborators —
decompression inverting compression and private-key decryption inverting
public-key encryption for the matching pair — the full pipeline
round-trips whenever the compressed ciphertext length is a multiple of
127, i.e. every data chunk is full.  Otherwise the final short chunk is
zero-padded by the modelled block code and the decode side cannot remove
the padding (see the counterexample). -/
theorem claim1_pipeline_roundtrip_mod127 (E : Externals) (pub priv : Nat) (b : ByteStr)
    (hcu : E.uncomp (E.comp (E.enc b pub)) = some (E.enc b pub))
    (hde : E.dec (E.enc b pub) priv = some b)
    (hlen : (E.comp (E.enc b pub)).length % 127 = 0) :
    crypto.decode E (crypto.encode E (PyStr.bytes b) pub) priv = some b :=
  pipeline_roundtrip E pub priv b hcu hde hlen

/-- Witness for the amended claim C1: identity collaborators and a
127-byte payload. -/
theorem claim1_witness :
    (idE.uncomp (idE.comp (idE.enc (List.replicate 127 (0 : Byte)) 0)) =
        some (idE.enc (List.replicate 127 (0 : Byte)) 0) ∧
      idE.dec (idE.enc (List.replicate 127 (0 : Byte)) 0) 0 =
        some (List.replicate 127 (0 : Byte)) ∧
      (idE.comp (idE.enc (List.replicate 127 (0 : Byte)) 0)).length % 127 = 0) ∧
      crypto.decode idE (crypto.encode idE (PyStr.bytes (List.replicate 127 (0 : Byte))) 0) 0 =
        some (List.replicate 127 (0 : Byte)) :=
  ⟨⟨rfl, rfl, by decide⟩,
    claim1_pipeline_roundtrip_mod127 idE 0 0 (List.replicate 127 (0 : Byte)) rfl rfl (by decide)⟩

/-- Counterexample to claim C1 as stated: with identity collaborators (a
legitimate matching key pair and a compliant compressor) the one-byte
payload `[1]` comes back as the 127-byte zero-padded chunk, not as `[1]`:
the byte sequence does not round-trip. -/
theorem claim1_counterexample :
    crypto.decode idE (crypto.encode idE (PyStr.bytes [1]) 0) 0 =
        some ((1 : Byte) :: List.replicate 126 0) ∧
      crypto.decode idE (crypto.encode idE (PyStr.bytes [1]) 0) 0 ≠ some [(1 : Byte)] := by
  have hw : crypto.getprotected (crypto.protect ([1] : ByteStr)) =
      some ((1 : Byte) :: List.replicate 126 0) := by
    rw [getprotected_protect, ofFn_toMsg_pad [1] (by decide)]
    rfl
  have henc : crypto.encode idE (PyStr.bytes [1]) 0 =
      crypto.numencode (crypto.protect [1]) := by
    rw [crypto.encode]
    rw [show crypto.chunks (idE.comp (crypto.encrypt idE (PyStr.bytes [1]) 0)) 127 =
      [[1]] from rfl]
    rw [List.foldl_cons, List.foldl_nil, List.nil_append]
  have hch : crypto.chunks (crypto.protect ([1] : ByteStr)) 255 =
      [crypto.protect [1]] := by
    have h := chunks_flatten_uniform [crypto.protect ([1] : ByteStr)] 255 (by norm_num)
      (by intro w hw2
          rw [List.mem_singleton.mp hw2]
          exact protect_length _)
    simpa using h
  have hmain : crypto.decode idE (crypto.encode idE (PyStr.bytes [1]) 0) 0 =
      some ((1 : Byte) :: List.replicate 126 0) := by
    rw [henc, crypto.decode, numdecode_numencode, Option.some_bind, hch,
      crypto.decodeChunks, hw]
    rw [show crypto.decodeChunks [] = some [] from rfl]
    simp [idE]
  refine ⟨hmain, ?_⟩
  rw [hmain]
  decide

/-- Claim C8 (corrected, amended): for a Unicode payload the pipeline
returns the UTF-8 byte encoding of the text, not the `unicode` value
itself — `crypto.decode` always returns a byte string (`decrypt` output)
— again provided the compressed ciphertext length is a multiple of 127
(cf. claim C1). -/
theorem claim8_unicode_decode_utf8 (E : Externals) (pub priv : Nat) (u : List Nat)
    (hcu : E.uncomp (E.comp (E.enc (utf8Encode u) pub)) = some (E.enc (utf8Encode u) pub))
    (hde : E.dec (E.enc (utf8Encode u) pub) priv = some (utf8Encode u))
    (hlen : (E.comp (E.enc (utf8Encode u) pub)).length % 127 = 0) :
    crypto.decode E (crypto.encode E (PyStr.uni u) pub) priv = some (utf8Encode u) :=
  pipeline_roundtrip E pub priv (utf8Encode u) hcu hde hlen

/-- Witness for the amended claim C8: identity collaborators and the
Cyrillic text `uCyr` whose UTF-8 encoding is exactly 127 bytes. -/
theorem claim8_witness :
    (idE.uncomp (idE.comp (idE.enc (utf8Encode uCyr) 0)) = some (idE.enc (utf8Encode uCyr) 0) ∧
      idE.dec (idE.enc (utf8Encode uCyr) 0) 0 = some (utf8Encode uCyr) ∧
      (idE.comp (idE.enc (utf8Encode uCyr) 0)).length % 127 = 0) ∧
      crypto.decode idE (crypto.encode idE (PyStr.uni uCyr) 0) 0 = some (utf8Encode uCyr) :=
  ⟨⟨rfl, rfl, by decide⟩,
    claim8_unicode_decode_utf8 idE 0 0 uCyr rfl rfl (by decide)⟩

/-- Counterexample to claim C8 as stated: decoding the encoding of the
Cyrillic text `uCyr` yields its UTF-8 byte string, which under Python 2
equality is not equal to the original `unicode` text (the bytes are not
ASCII, so the coercing comparison is false). -/
theorem claim8_counterexample :
    crypto.decode idE (crypto.encode idE (PyStr.uni uCyr) 0) 0 = some (utf8Encode uCyr) ∧
      ¬ pyStrUniEq (utf8Encode uCyr) uCyr := by
  constructor
  · exact pipeline_roundtrip idE 0 0 (utf8Encode uCyr) rfl rfl (by decide)
  · decide
